import Mathlib

/-!
Shallow embedding of the `Common` class from `packages/common/src/index.ts`:
chain/hardfork parameter resolution with EIP overrides, active-hardfork
queries, and EIP-2124 fork-hash derivation.  The static chain/hardfork/EIP
data tables are external inputs of the library (loaded from JSON), so they
are modelled as explicit values (`Dataset`, `Chain`).  JavaScript
`null`/`undefined` distinctions that the code observes are modelled with
`Option`; thrown `Error`s with `Except`/`Option` error results; the numeric
coercion of `null` to `0` used in `>` comparisons with `jsNum`.
-/

/-- Error taxonomy: one constructor per distinct `throw new Error(...)` site
reachable from the embedded methods. -/
inductive CommonError where
  | hardforkNotSupported (hf : String)
  | hardforkNotDefined (hf : String) (chain : String)
  | eipNotSupported (eip : Nat)
  | eipHardforkTooOld (eip : Nat)
  | topicNotDefined (topic : String)
  | noForkHash
  deriving DecidableEq

deriving instance DecidableEq for Except

/-- Numeric value of a hexadecimal digit character, `none` otherwise. -/
def hexDigitVal (ch : Char) : Option Nat :=
  if '0' ≤ ch ∧ ch ≤ '9' then some (ch.toNat - 48)
  else if 'a' ≤ ch ∧ ch ≤ 'f' then some (ch.toNat - 87)
  else if 'A' ≤ ch ∧ ch ≤ 'F' then some (ch.toNat - 55)
  else none

/-- `Buffer.from(s, 'hex')`: decode hexadecimal digit pairs into bytes,
stopping at the first non-hex character or at a trailing lone digit. -/
def hexDecode : List Char → List Nat
  | c1 :: c2 :: rest =>
    match hexDigitVal c1, hexDigitVal c2 with
    | some hi, some lo => (16 * hi + lo) :: hexDecode rest
    | _, _ => []
  | _ => []

/-- `block.toString(16).padStart(16, '0')` followed by hex decoding: the
8-byte big-endian encoding `_calcForkHash` uses for activation blocks. -/
def blockToBytes (b : Nat) : List Nat :=
  hexDecode (List.replicate (16 - (Nat.toDigits 16 b).length) '0' ++ Nat.toDigits 16 b)

/-- One bit-step of the reflected CRC-32: shift right, conditionally xor
the reversed polynomial 0xEDB88320. -/
def crc32Round (crc : Nat) : Nat :=
  if crc % 2 = 1 then Nat.xor (crc / 2) 0xEDB88320 else crc / 2

/-- Iterate `crc32Round`. -/
def crc32Rounds : Nat → Nat → Nat
  | 0, crc => crc
  | n + 1, crc => crc32Rounds n (crc32Round crc)

/-- Fold one byte after another into the running CRC state. -/
def crc32Aux : List Nat → Nat → Nat
  | [], crc => crc
  | b :: rest, crc => crc32Aux rest (crc32Rounds 8 (Nat.xor crc (b % 256)))

/-- Standard CRC-32 (IEEE, reflected polynomial, init and final xor
0xFFFFFFFF): the checksum computed by the `crc-32` npm package, already
taken as an unsigned 32-bit integer (the source applies `>>> 0`). -/
def crc32 (data : List Nat) : Nat :=
  Nat.xor (crc32Aux data 0xFFFFFFFF) 0xFFFFFFFF

/-- A hardfork record of a chain's timeline: `name`, activation `block`
(`null` = not scheduled) and an optional precomputed `forkHash`. -/
structure HardforkRecord where
  name : String
  block : Option Nat
  forkHash : Option String
  deriving DecidableEq

/-- The genesis descriptor; only the `hash` hex string is read here. -/
structure GenesisBlock where
  hash : String
  deriving DecidableEq

/-- A chain descriptor (the fields the embedded methods read). -/
structure Chain where
  name : String
  genesis : GenesisBlock
  hardforks : List HardforkRecord
  deriving DecidableEq

/-- A parameter entry `{ v: ... }`; `v` itself may be JSON `null`. -/
structure ParamRec where
  v : Option Int
  deriving DecidableEq

/-- A topic → (name → entry) map, as in the hardfork/EIP JSON files. -/
abbrev TopicsDef := List (String × List (String × ParamRec))

/-- A record of the `HARDFORK_CHANGES` list: either an EIP-referencing
file (has an `eips` key) or a parameter-inlining file. -/
inductive HFChange where
  | eipRef (eips : List Nat)
  | inlined (params : TopicsDef)
  deriving DecidableEq

/-- An EIP definition: `minimumHardfork` plus parameter topics. -/
structure EIPDef where
  minimumHardfork : String
  topics : TopicsDef
  deriving DecidableEq

/-- The module-level tables `HARDFORK_CHANGES` and `EIPs`. -/
structure Dataset where
  hardforkChanges : List (String × HFChange)
  eipDefs : List (Nat × EIPDef)
  deriving DecidableEq

/-- The mutable fields of a `Common` instance. -/
structure Common where
  chainParams : Chain
  hardfork : String
  supportedHardforks : List String
  eips : List Nat
  deriving DecidableEq

/-- The `hardforkOptions` interface; `none` models an absent field. -/
structure hardforkOptions where
  onlySupported : Option Bool
  onlyActive : Option Bool
  deriving DecidableEq

/-- An options object with no field set (`{}` / `undefined` in JS). -/
def noOpts : hardforkOptions := ⟨none, none⟩

/-- JavaScript numeric coercion of a possibly-`null` block (`null` → 0),
as applied by `>`/`>=` comparisons in the source. -/
def jsNum (b : Option Nat) : Nat := b.getD 0

namespace Common

/-- `hardforks()`: the chain's hardfork table verbatim. -/
def hardforks (c : Common) : List HardforkRecord := c.chainParams.hardforks

/-- `_isSupportedHardfork`: member of the allow-list, or the allow-list
is empty. -/
def _isSupportedHardfork (c : Common) (hardfork : String) : Bool :=
  if c.supportedHardforks.length > 0 then c.supportedHardforks.contains hardfork else true

/-- `_chooseHardfork`: falsy argument (absent or `""`) selects the stored
hardfork; otherwise optionally enforce the allow-list. -/
def _chooseHardfork (c : Common) (hardfork : Option String) (onlySupported : Bool) :
    Except CommonError String :=
  match hardfork with
  | none => .ok c.hardfork
  | some hf =>
    if hf = "" then .ok c.hardfork
    else if onlySupported && !(c._isSupportedHardfork hf) then
      .error (.hardforkNotSupported hf)
    else .ok hf

/-- `_getHardfork`: first record of the table with the given name. -/
def _getHardfork (c : Common) (hardfork : String) : Except CommonError HardforkRecord :=
  match c.hardforks.find? (fun hf => hf.name == hardfork) with
  | some hf => .ok hf
  | none => .error (.hardforkNotDefined hardfork c.chainParams.name)

/-- The loop body of `activeHardforks`: skip `null` blocks, break (when a
block number is given) at the first record with a larger block, skip
unsupported records when `onlySupported` is set. -/
def activeHardforksLoop (c : Common) (blockNumber : Option Nat) (onlySupported : Bool) :
    List HardforkRecord → List HardforkRecord
  | [] => []
  | hf :: rest =>
    match hf.block with
    | none => c.activeHardforksLoop blockNumber onlySupported rest
    | some b =>
      match blockNumber with
      | some bn =>
        if bn < b then []
        else if onlySupported && !(c._isSupportedHardfork hf.name) then
          c.activeHardforksLoop blockNumber onlySupported rest
        else hf :: c.activeHardforksLoop blockNumber onlySupported rest
      | none =>
        if onlySupported && !(c._isSupportedHardfork hf.name) then
          c.activeHardforksLoop blockNumber onlySupported rest
        else hf :: c.activeHardforksLoop blockNumber onlySupported rest

/-- `activeHardforks(blockNumber?, opts?)`. -/
def activeHardforks (c : Common) (blockNumber : Option Nat) (opts : hardforkOptions) :
    List HardforkRecord :=
  c.activeHardforksLoop blockNumber (opts.onlySupported.getD false) c.hardforks

/-- `paramByEIP`: unknown EIP and missing topic throw; a missing name
yields `null`; otherwise the entry's `v` (itself possibly `null`). -/
def paramByEIP (ds : Dataset) (topic pname : String) (eip : Nat) :
    Except CommonError (Option Int) :=
  match ds.eipDefs.lookup eip with
  | none => .error (.eipNotSupported eip)
  | some eipParams =>
    match eipParams.topics.lookup topic with
    | none => .error (.topicNotDefined topic)
    | some params =>
      match params.lookup pname with
      | none => .ok none
      | some entry => .ok entry.v

/-- The inner loop of `paramByHardfork` for an EIP-referencing record:
the last referenced EIP returning a non-`null` value overwrites. -/
def eipRefLoop (ds : Dataset) (topic pname : String) :
    List Nat → Option Int → Except CommonError (Option Int)
  | [], value => .ok value
  | eip :: rest, value =>
    match Common.paramByEIP ds topic pname eip with
    | .error e => .error e
    | .ok valueEIP =>
      Common.eipRefLoop ds topic pname rest (if valueEIP.isSome then valueEIP else value)

/-- Processing of one `HARDFORK_CHANGES` record inside `paramByHardfork`. -/
def hfStep (ds : Dataset) (topic pname : String) (change : HFChange) (value : Option Int) :
    Except CommonError (Option Int) :=
  match change with
  | .eipRef eips => Common.eipRefLoop ds topic pname eips value
  | .inlined params =>
    match params.lookup topic with
    | none => .error (.topicNotDefined topic)
    | some entries =>
      match entries.lookup pname with
      | none => .ok value
      | some entry => .ok entry.v

/-- The walk of `paramByHardfork` over `HARDFORK_CHANGES`, breaking after
the record whose name matches the target hardfork. -/
def hfLoop (ds : Dataset) (topic pname hardfork : String) :
    List (String × HFChange) → Option Int → Except CommonError (Option Int)
  | [], value => .ok value
  | (hfName, change) :: rest, value =>
    match Common.hfStep ds topic pname change value with
    | .error e => .error e
    | .ok value' =>
      if hfName = hardfork then .ok value'
      else Common.hfLoop ds topic pname hardfork rest value'

/-- `paramByHardfork(topic, name, hardfork)`. -/
def paramByHardfork (ds : Dataset) (c : Common) (topic pname hardfork : String) :
    Except CommonError (Option Int) :=
  match c._chooseHardfork (some hardfork) true with
  | .error e => .error e
  | .ok hf => Common.hfLoop ds topic pname hf ds.hardforkChanges none

/-- The EIP loop of `param`: return the first non-`null` EIP value. -/
def paramEIPLoop (ds : Dataset) (topic pname : String) :
    List Nat → Except CommonError (Option Int)
  | [] => .ok none
  | eip :: rest =>
    match Common.paramByEIP ds topic pname eip with
    | .error e => .error e
    | .ok (some v) => .ok (some v)
    | .ok none => Common.paramEIPLoop ds topic pname rest

/-- `param(topic, name)`: active-EIP layer first, then the hardfork
timeline at the stored hardfork. -/
def param (ds : Dataset) (c : Common) (topic pname : String) :
    Except CommonError (Option Int) :=
  match Common.paramEIPLoop ds topic pname c.eips with
  | .error e => .error e
  | .ok (some v) => .ok (some v)
  | .ok none => c.paramByHardfork ds topic pname c.hardfork

/-- The index scan of `hardforkGteHardfork`: the last index whose record
name matches each argument, starting from `-1`. -/
def hfPositions (hardfork1 hardfork2 : String) :
    List HardforkRecord → Nat → Int → Int → Int × Int
  | [], _, posHf1, posHf2 => (posHf1, posHf2)
  | hf :: rest, index, posHf1, posHf2 =>
    Common.hfPositions hardfork1 hardfork2 rest (index + 1)
      (if hf.name = hardfork1 then (index : Int) else posHf1)
      (if hf.name = hardfork2 then (index : Int) else posHf2)

/-- `hardforkGteHardfork(hardfork1, hardfork2, opts)`. -/
def hardforkGteHardfork (c : Common) (hardfork1 : Option String) (hardfork2 : String)
    (opts : hardforkOptions) : Except CommonError Bool :=
  match c._chooseHardfork hardfork1 (opts.onlySupported.getD true) with
  | .error e => .error e
  | .ok hf1 =>
    let hfs :=
      if opts.onlyActive.getD false then
        c.activeHardforksLoop none (opts.onlySupported.getD false) c.hardforks
      else c.hardforks
    let p := Common.hfPositions hf1 hardfork2 hfs 0 (-1) (-1)
    .ok (decide (p.1 ≥ p.2))

/-- `gteHardfork(hardfork, opts)`: alias with the stored hardfork. -/
def gteHardfork (c : Common) (hardfork : String) (opts : hardforkOptions) :
    Except CommonError Bool :=
  c.hardforkGteHardfork none hardfork opts

/-- The validation loop of `setEIPs` (runs before any mutation). -/
def setEIPsLoop (ds : Dataset) (c : Common) : List Nat → Except CommonError Unit
  | [] => .ok ()
  | eip :: rest =>
    match ds.eipDefs.lookup eip with
    | none => .error (.eipNotSupported eip)
    | some d =>
      match c.gteHardfork d.minimumHardfork noOpts with
      | .error e => .error e
      | .ok minHF =>
        if !minHF then .error (.eipHardforkTooOld eip)
        else Common.setEIPsLoop ds c rest

/-- `setEIPs(eips)`: validate every EIP, then assign `_eips`.  A thrown
error propagates before the assignment, leaving the instance unchanged. -/
def setEIPs (ds : Dataset) (c : Common) (eips : List Nat) : Option CommonError × Common :=
  match Common.setEIPsLoop ds c eips with
  | .error e => (some e, c)
  | .ok _ => (none, { c with eips := eips })

/-- `hardforkBlock(hardfork?)`. -/
def hardforkBlock (c : Common) (hardfork : Option String) :
    Except CommonError (Option Nat) :=
  match c._chooseHardfork hardfork false with
  | .error e => .error e
  | .ok hf =>
    match c._getHardfork hf with
    | .error e => .error e
    | .ok data => .ok data.block

/-- `nextHardforkBlock(hardfork?)`: the `reduce` keeps the first record
whose (numerified) block exceeds the target's block. -/
def nextHardforkBlock (c : Common) (hardfork : Option String) :
    Except CommonError (Option Nat) :=
  match c._chooseHardfork hardfork false with
  | .error e => .error e
  | .ok hf =>
    match c.hardforkBlock (some hf) with
    | .error e => .error e
    | .ok hfBlock =>
      .ok (c.hardforks.foldl
        (fun acc r => if jsNum r.block > jsNum hfBlock ∧ acc = none then r.block else acc)
        none)

/-- The accumulation loop of `_calcForkHash`: append the 8-byte encoding
of every block that is neither 0 nor `null` nor equal to the previous
record's block, breaking after the target hardfork's record. -/
def forkHashLoop (hardfork : String) :
    List HardforkRecord → Option Nat → List Nat → List Nat
  | [], _, hfBuffer => hfBuffer
  | hf :: rest, prevBlock, hfBuffer =>
    let hfBuffer' :=
      match hf.block with
      | some b => if b ≠ 0 ∧ some b ≠ prevBlock then hfBuffer ++ blockToBytes b else hfBuffer
      | none => hfBuffer
    if hf.name = hardfork then hfBuffer'
    else Common.forkHashLoop hardfork rest hf.block hfBuffer'

/-- `_calcForkHash(hardfork)`: CRC-32 over genesis-hash bytes followed by
the accumulated block bytes, rendered as `0x`-prefixed lowercase hex. -/
def _calcForkHash (c : Common) (hardfork : String) : String :=
  let genesis := hexDecode (c.chainParams.genesis.hash.toList.drop 2)
  let hfBuffer := Common.forkHashLoop hardfork c.hardforks (some 0) []
  "0x" ++ String.mk (Nat.toDigits 16 (crc32 (genesis ++ hfBuffer)))

/-- `forkHash(hardfork?)`: throw for a `null` block, return a precomputed
`forkHash` field when present, otherwise compute. -/
def forkHash (c : Common) (hardfork : Option String) : Except CommonError String :=
  match c._chooseHardfork hardfork false with
  | .error e => .error e
  | .ok hf =>
    match c._getHardfork hf with
    | .error e => .error e
    | .ok data =>
      match data.block with
      | none => .error .noForkHash
      | some _ =>
        match data.forkHash with
        | some v => .ok v
        | none => .ok (c._calcForkHash hf)

/-- `hardforkForForkHash(forkHash)`: the unique record whose stored
`forkHash` field equals the argument, else `null`. -/
def hardforkForForkHash (c : Common) (forkHash : String) : Option HardforkRecord :=
  let resArray := c.hardforks.filter (fun hf => hf.forkHash == some forkHash)
  if resArray.length = 1 then resArray.head? else none

end Common

/-! Spec-side definitions, stated from the specification's wording, to be
compared with the code-side functions above. -/

/-- Spec-side: the timeline walked "up to and including the target". -/
def takeToTarget (hardfork : String) : List HardforkRecord → List HardforkRecord
  | [] => []
  | hf :: rest => if hf.name = hardfork then [hf] else hf :: takeToTarget hardfork rest

/-- Spec-side: the bytes a record contributes to the fork-hash input, given
the immediately preceding record's block value: its 8-byte big-endian block
number when the block "is neither 0 nor null and differs from the
immediately preceding record's block value". -/
def specRecordBytes (p : HardforkRecord × Option Nat) : Option (List Nat) :=
  match p.1.block with
  | some b => if b ≠ 0 ∧ some b ≠ p.2 then some (blockToBytes b) else none
  | none => none

/-- Spec-side: the accumulated block bytes over the walked records, each
paired with its predecessor's block (`prev` stands before the first). -/
def specForkBytesFrom (hardfork : String) (prev : Option Nat) (hfs : List HardforkRecord) :
    List Nat :=
  let upto := takeToTarget hardfork hfs
  ((upto.zip (prev :: upto.map (fun hf => hf.block))).filterMap specRecordBytes).flatten

/-- Spec-side: the accumulated block bytes of the fork-hash derivation
(chainstart's conventional predecessor block is 0). -/
def specForkBlockBytes (hardfork : String) (hfs : List HardforkRecord) : List Nat :=
  specForkBytesFrom hardfork (some 0) hfs

/-- Spec-side: CRC-32 over genesis bytes followed by the accumulated block
bytes, rendered as a 0x-prefixed lowercase hexadecimal string. -/
def specForkHash (c : Common) (hardfork : String) : String :=
  "0x" ++ String.mk (Nat.toDigits 16 (crc32
    (hexDecode (c.chainParams.genesis.hash.toList.drop 2) ++
      specForkBlockBytes hardfork c.hardforks)))

/-- Minimum of a list of naturals, `none` for the empty list. -/
def listMin : List Nat → Option Nat
  | [] => none
  | x :: rest =>
    match listMin rest with
    | none => some x
    | some m => some (min x m)

/-- First element strictly above `b`, in list order. -/
def firstAbove (b : Nat) : List Nat → Option Nat
  | [] => none
  | x :: rest => if b < x then some x else firstAbove b rest

/-- Each element is a lower bound of its tail: the data model's invariant
that the timeline's non-null blocks are monotonically nondecreasing. -/
def pairwiseLe : List Nat → Bool
  | [] => true
  | x :: rest => rest.all (fun y => x ≤ y) && pairwiseLe rest

/-! Concrete fixtures used by witnesses and counterexamples.  `chainA`
mirrors the mainnet scenario table of the specification. -/

/-- The scenario timeline `[chainstart@0, homestead@1150000,
byzantium@4370000, istanbul@null]`. -/
def chainA : Chain :=
  { name := "mainnet"
    genesis := { hash := "0xd4e56740f876aef8c010b86a40d5f56745a118d0906a34e69aec8c0db1cb8fa3" }
    hardforks :=
      [ { name := "chainstart", block := some 0, forkHash := none }
      , { name := "homestead", block := some 1150000, forkHash := none }
      , { name := "byzantium", block := some 4370000, forkHash := none }
      , { name := "istanbul", block := none, forkHash := none } ] }

/-- A dataset with parameter-inlining hardfork files and three EIPs:
2929 overrides `gasPrices.sstoreSet`, 1234 defines only `gasConfig`,
2537 requires hardfork `istanbul`. -/
def dsA : Dataset :=
  { hardforkChanges :=
      [ ("chainstart", .inlined
          [ ("gasConfig", [("minGasLimit", { v := some 5000 })])
          , ("gasPrices", [("sstoreSet", { v := some 200 })]) ])
      , ("homestead", .inlined [("gasConfig", []), ("gasPrices", [])])
      , ("byzantium", .inlined
          [("gasConfig", []), ("gasPrices", [("sstoreSet", { v := some 300 })])])
      , ("istanbul", .inlined [("gasConfig", []), ("gasPrices", [])]) ]
    eipDefs :=
      [ (2929, { minimumHardfork := "chainstart"
                 topics := [("gasPrices", [("sstoreSet", { v := some 500 })])] })
      , (1234, { minimumHardfork := "chainstart", topics := [("gasConfig", [])] })
      , (2537, { minimumHardfork := "istanbul", topics := [("gasPrices", [])] }) ] }

/-- Context on `chainA` at `byzantium` with EIP 2929 active. -/
def ctxA : Common :=
  { chainParams := chainA, hardfork := "byzantium", supportedHardforks := [], eips := [2929] }

/-- Context on `chainA` at `byzantium` with EIP 1234 active (an EIP that
does not define the `gasPrices` topic). -/
def ctxTopicless : Common :=
  { chainParams := chainA, hardfork := "byzantium", supportedHardforks := [], eips := [1234] }

/-- Context on `chainA` at `chainstart` with no EIP active. -/
def ctxChainstart : Common :=
  { chainParams := chainA, hardfork := "chainstart", supportedHardforks := [], eips := [] }

/-- A chain whose `homestead` record carries a precomputed fork hash. -/
def chainPre : Chain :=
  { name := "pre"
    genesis := { hash := "0x00" }
    hardforks :=
      [ { name := "chainstart", block := some 0, forkHash := none }
      , { name := "homestead", block := some 1500, forkHash := some "0xfeedc0de" }
      , { name := "istanbul", block := none, forkHash := none } ] }

/-- Context on `chainPre`. -/
def ctxPre : Common :=
  { chainParams := chainPre, hardfork := "homestead", supportedHardforks := [], eips := [] }

/-- Validity of one EIP for `setEIPs`: defined in the dataset and the
stored hardfork meets its `minimumHardfork` in timeline order. -/
def eipValidB (ds : Dataset) (c : Common) (eip : Nat) : Bool :=
  match ds.eipDefs.lookup eip with
  | none => false
  | some d =>
    match c.gteHardfork d.minimumHardfork noOpts with
    | .ok b => b
    | .error _ => false

/-- A dataset whose second timeline record does not define `gasPrices`. -/
def dsTopicGap : Dataset :=
  { hardforkChanges :=
      [ ("chainstart", .inlined [("gasPrices", [("netSstoreNoopGas", { v := some 200 })])])
      , ("homestead", .inlined [("gasConfig", [])])
      , ("byzantium", .inlined [("gasPrices", [])]) ]
    eipDefs := [] }

/-- A chain whose `beta` record stores, as its precomputed fork hash, the
hash computed for `alpha` (whose own record carries no stored hash). -/
def chainShadow : Chain :=
  { name := "shadow"
    genesis := { hash := "0x00" }
    hardforks :=
      [ { name := "alpha", block := some 1, forkHash := none }
      , { name := "beta", block := some 2, forkHash := some "0x910e2438" } ] }

/-- Context on `chainShadow`. -/
def ctxShadow : Common :=
  { chainParams := chainShadow, hardfork := "alpha", supportedHardforks := [], eips := [] }

/-- Context on `chainA` at `istanbul` (an unscheduled hardfork). -/
def ctxIstanbul : Common :=
  { chainParams := chainA, hardfork := "istanbul", supportedHardforks := [], eips := [] }

/-! Helper lemmas about the EIP layer of `param`. -/

theorem paramEIPLoop_all_none (ds : Dataset) (topic pname : String) :
    ∀ l : List Nat, (∀ e ∈ l, Common.paramByEIP ds topic pname e = .ok none) →
      Common.paramEIPLoop ds topic pname l = .ok none := by
  intro l
  induction l with
  | nil => intro _; rfl
  | cons e rest ih =>
    intro h
    simp only [Common.paramEIPLoop]
    rw [h e (List.mem_cons_self e rest)]
    exact ih (fun e' he' => h e' (List.mem_cons_of_mem _ he'))

theorem paramEIPLoop_first (ds : Dataset) (topic pname : String) :
    ∀ (pre : List Nat) (e : Nat) (rest : List Nat) (v : Int),
      (∀ e' ∈ pre, Common.paramByEIP ds topic pname e' = .ok none) →
      Common.paramByEIP ds topic pname e = .ok (some v) →
      Common.paramEIPLoop ds topic pname (pre ++ e :: rest) = .ok (some v) := by
  intro pre
  induction pre with
  | nil =>
    intro e rest v _ he
    simp only [List.nil_append, Common.paramEIPLoop]
    rw [he]
  | cons p pre' ih =>
    intro e rest v hpre he
    simp only [List.cons_append, Common.paramEIPLoop]
    rw [hpre p (List.mem_cons_self p pre')]
    exact ih e rest v (fun e' he' => hpre e' (List.mem_cons_of_mem _ he')) he

theorem paramEIPLoop_propagates (ds : Dataset) (topic pname : String) :
    ∀ (pre : List Nat) (e : Nat) (rest : List Nat) (err : CommonError),
      (∀ e' ∈ pre, Common.paramByEIP ds topic pname e' = .ok none) →
      Common.paramByEIP ds topic pname e = .error err →
      Common.paramEIPLoop ds topic pname (pre ++ e :: rest) = .error err := by
  intro pre
  induction pre with
  | nil =>
    intro e rest err _ he
    simp only [List.nil_append, Common.paramEIPLoop]
    rw [he]
  | cons p pre' ih =>
    intro e rest err hpre he
    simp only [List.cons_append, Common.paramEIPLoop]
    rw [hpre p (List.mem_cons_self p pre')]
    exact ih e rest err (fun e' he' => hpre e' (List.mem_cons_of_mem _ he')) he

/-- C1: for a `(topic, name)` pair, `param` checks the active EIPs in list
order; the first EIP returning a non-null value wins and resolution stops,
and only when every active EIP yields null is the hardfork-timeline value
(`paramByHardfork` at the stored hardfork) returned. -/
theorem Common.param_eip_precedence (ds : Dataset) (c : Common) (topic pname : String) :
    (∀ (pre : List Nat) (e : Nat) (rest : List Nat) (v : Int),
        c.eips = pre ++ e :: rest →
        (∀ e' ∈ pre, Common.paramByEIP ds topic pname e' = .ok none) →
        Common.paramByEIP ds topic pname e = .ok (some v) →
        Common.param ds c topic pname = .ok (some v))
    ∧ ((∀ e ∈ c.eips, Common.paramByEIP ds topic pname e = .ok none) →
        Common.param ds c topic pname = c.paramByHardfork ds topic pname c.hardfork) := by
  constructor
  · intro pre e rest v hsplit hpre he
    unfold Common.param
    rw [hsplit, paramEIPLoop_first ds topic pname pre e rest v hpre he]
  · intro h
    unfold Common.param
    rw [paramEIPLoop_all_none ds topic pname c.eips h]

/-- C1 witness: with EIP 2929 overriding `gasPrices.sstoreSet = 500` over a
timeline defining it as 200, `param` returns 500. -/
theorem Common.param_eip_precedence_witness :
    Common.param dsA ctxA "gasPrices" "sstoreSet" = .ok (some 500) :=
  (Common.param_eip_precedence dsA ctxA "gasPrices" "sstoreSet").1 [] 2929 [] 500
    rfl (by intro e' he'; cases he') (by decide)

/-- C10: if the EIP loop of `param` reaches an active EIP whose definition
lacks the queried topic (all earlier active EIPs having yielded null),
`param` fails with the topic-not-defined error rather than skipping that
EIP; the timeline value is consulted only when every active EIP yields
null. -/
theorem Common.param_eip_topic_error (ds : Dataset) (c : Common) (topic pname : String) :
    (∀ (pre : List Nat) (e : Nat) (rest : List Nat) (d : EIPDef),
        c.eips = pre ++ e :: rest →
        (∀ e' ∈ pre, Common.paramByEIP ds topic pname e' = .ok none) →
        ds.eipDefs.lookup e = some d →
        d.topics.lookup topic = none →
        Common.param ds c topic pname = .error (.topicNotDefined topic))
    ∧ ((∀ e ∈ c.eips, Common.paramByEIP ds topic pname e = .ok none) →
        Common.param ds c topic pname = c.paramByHardfork ds topic pname c.hardfork) := by
  constructor
  · intro pre e rest d hsplit hpre hd htopic
    have he : Common.paramByEIP ds topic pname e = .error (.topicNotDefined topic) := by
      unfold Common.paramByEIP
      rw [hd]
      simp only [htopic]
    unfold Common.param
    rw [hsplit, paramEIPLoop_propagates ds topic pname pre e rest _ hpre he]
  · intro h
    unfold Common.param
    rw [paramEIPLoop_all_none ds topic pname c.eips h]

/-- C10 witness: activating EIP 1234 (which defines only `gasConfig`) makes
`param("gasPrices", "sstoreSet")` fail with the topic error instead of
falling through to the timeline. -/
theorem Common.param_eip_topic_error_witness :
    Common.param dsA ctxTopicless "gasPrices" "sstoreSet" =
      .error (.topicNotDefined "gasPrices") :=
  (Common.param_eip_topic_error dsA ctxTopicless "gasPrices" "sstoreSet").1
    [] 1234 [] { minimumHardfork := "chainstart", topics := [("gasConfig", [])] }
    rfl (by intro e' he'; cases he') (by decide) (by decide)

/-! The `activeHardforks` walk as filter/takeWhile operations. -/

theorem activeHardforksLoop_spec (c : Common) (bn : Nat) (os : Bool) :
    ∀ l : List HardforkRecord,
      c.activeHardforksLoop (some bn) os l =
        ((l.filter (fun hf => hf.block.isSome)).takeWhile
            (fun hf => decide (jsNum hf.block ≤ bn))).filter
          (fun hf => !os || c._isSupportedHardfork hf.name) := by
  intro l
  induction l with
  | nil => rfl
  | cons hf rest ih =>
    cases hb : hf.block with
    | none =>
      have h1 : List.filter (fun hf : HardforkRecord => hf.block.isSome) (hf :: rest)
          = List.filter (fun hf : HardforkRecord => hf.block.isSome) rest := by
        rw [List.filter_cons]
        simp [hb]
      simp only [Common.activeHardforksLoop, hb, h1]
      exact ih
    | some b =>
      have h1 : List.filter (fun hf : HardforkRecord => hf.block.isSome) (hf :: rest)
          = hf :: List.filter (fun hf : HardforkRecord => hf.block.isSome) rest := by
        rw [List.filter_cons]
        simp [hb]
      by_cases hlt : bn < b
      · have h2 : decide (jsNum hf.block ≤ bn) = false := by
          rw [hb]
          simp only [jsNum, Option.getD_some]
          exact decide_eq_false (Nat.not_le.mpr hlt)
        simp only [Common.activeHardforksLoop, hb]
        rw [if_pos hlt, h1, List.takeWhile_cons, h2]
        simp
      · have h2 : decide (jsNum hf.block ≤ bn) = true := by
          rw [hb]
          simp only [jsNum, Option.getD_some]
          exact decide_eq_true (Nat.le_of_not_lt hlt)
        by_cases hs : (os && !(c._isSupportedHardfork hf.name)) = true
        · have h3 : (!os || c._isSupportedHardfork hf.name) = false := by
            revert hs
            cases os <;> cases c._isSupportedHardfork hf.name <;> simp
          simp only [Common.activeHardforksLoop, hb]
          rw [if_neg hlt, if_pos hs, h1, List.takeWhile_cons, h2, ih]
          simp [List.filter_cons, h3]
        · have h3 : (!os || c._isSupportedHardfork hf.name) = true := by
            revert hs
            cases os <;> cases c._isSupportedHardfork hf.name <;> simp
          simp only [Common.activeHardforksLoop, hb]
          rw [if_neg hlt, if_neg hs, h1, List.takeWhile_cons, h2, ih]
          simp [List.filter_cons, h3]

/-- C3: `activeHardforks(blockNumber, opts)` equals the hardfork table
restricted to non-null blocks, cut (exclusively) at the first record whose
block exceeds `blockNumber`, then filtered by the support allow-list when
`onlySupported` is set; without the support filter it is a prefix, in
timeline order, of the non-null restriction of the table. -/
theorem Common.activeHardforks_timeline_spec (c : Common) (bn : Nat) :
    (∀ opts : hardforkOptions,
        c.activeHardforks (some bn) opts =
          ((c.hardforks.filter (fun hf => hf.block.isSome)).takeWhile
              (fun hf => decide (jsNum hf.block ≤ bn))).filter
            (fun hf => !(opts.onlySupported.getD false) || c._isSupportedHardfork hf.name))
    ∧ (∃ tail,
        c.activeHardforks (some bn) noOpts ++ tail =
          c.hardforks.filter (fun hf => hf.block.isSome)) := by
  constructor
  · intro opts
    exact activeHardforksLoop_spec c bn _ c.hardforks
  · refine ⟨(c.hardforks.filter (fun hf => hf.block.isSome)).dropWhile
      (fun hf => decide (jsNum hf.block ≤ bn)), ?_⟩
    have h := activeHardforksLoop_spec c bn false c.hardforks
    have hfilter :
        ((c.hardforks.filter (fun hf => hf.block.isSome)).takeWhile
            (fun hf => decide (jsNum hf.block ≤ bn))).filter
          (fun hf => !false || c._isSupportedHardfork hf.name) =
        (c.hardforks.filter (fun hf => hf.block.isSome)).takeWhile
          (fun hf => decide (jsNum hf.block ≤ bn)) := by
      simp
    unfold Common.activeHardforks
    simp only [noOpts, Option.getD]
    rw [h, hfilter, List.takeWhile_append_dropWhile]

/-! The index scan of `hardforkGteHardfork` on absent names. -/

theorem hfPositions_fst_absent (hardfork1 hardfork2 : String) :
    ∀ (l : List HardforkRecord) (i : Nat) (p1 p2 : Int),
      hardfork1 ∉ l.map (fun hf => hf.name) →
      (Common.hfPositions hardfork1 hardfork2 l i p1 p2).1 = p1 := by
  intro l
  induction l with
  | nil => intro i p1 p2 _; rfl
  | cons hf rest ih =>
    intro i p1 p2 h
    have hne : ¬(hf.name = hardfork1) := by
      intro he
      exact h (by simp [he])
    simp only [Common.hfPositions, if_neg hne]
    exact ih (i + 1) _ _ (fun hm => h (List.mem_cons_of_mem _ hm))

theorem hfPositions_snd_absent (hardfork1 hardfork2 : String) :
    ∀ (l : List HardforkRecord) (i : Nat) (p1 p2 : Int),
      hardfork2 ∉ l.map (fun hf => hf.name) →
      (Common.hfPositions hardfork1 hardfork2 l i p1 p2).2 = p2 := by
  intro l
  induction l with
  | nil => intro i p1 p2 _; rfl
  | cons hf rest ih =>
    intro i p1 p2 h
    have hne : ¬(hf.name = hardfork2) := by
      intro he
      exact h (by simp [he])
    simp only [Common.hfPositions, if_neg hne]
    exact ih (i + 1) _ _ (fun hm => h (List.mem_cons_of_mem _ hm))

/-- C9 counterexample: on the scenario chain, comparing two names that are
both absent from the compared sequence yields `true` (since `-1 >= -1`
holds), not `false` — both through `hardforkGteHardfork` directly and
through the `gteHardfork` alias (stored hardfork `istanbul` absent from
the active-only sequence). -/
theorem Common.gteHardfork_absent_cex :
    Common.hardforkGteHardfork ctxA (some "foo") "bar" noOpts = .ok true ∧
    Common.gteHardfork ctxIstanbul "zeta" { onlySupported := none, onlyActive := some true } =
      .ok true := by
  constructor
  · decide
  · decide

/-- C9 (amended): when both compared hardfork names are absent from the
compared sequence, both resolve to position `-1` and `hardforkGteHardfork`
returns `true` (the source computes `-1 >= -1`), not `false`. -/
theorem Common.hardforkGteHardfork_both_absent (c : Common) (hf1 hf2 : String)
    (opts : hardforkOptions)
    (h0 : hf1 ≠ "")
    (hsup : opts.onlySupported.getD true = false ∨ c._isSupportedHardfork hf1 = true)
    (h1 : hf1 ∉ ((if opts.onlyActive.getD false then
            c.activeHardforksLoop none (opts.onlySupported.getD false) c.hardforks
          else c.hardforks).map (fun hf => hf.name)))
    (h2 : hf2 ∉ ((if opts.onlyActive.getD false then
            c.activeHardforksLoop none (opts.onlySupported.getD false) c.hardforks
          else c.hardforks).map (fun hf => hf.name))) :
    c.hardforkGteHardfork (some hf1) hf2 opts = .ok true := by
  have hch : c._chooseHardfork (some hf1) (opts.onlySupported.getD true) = .ok hf1 := by
    simp only [Common._chooseHardfork]
    rw [if_neg h0]
    rcases hsup with h | h
    · rw [h]
      simp
    · rw [h]
      simp
  unfold Common.hardforkGteHardfork
  rw [hch]
  simp only
  rw [hfPositions_fst_absent hf1 hf2 _ 0 (-1) (-1) h1,
    hfPositions_snd_absent hf1 hf2 _ 0 (-1) (-1) h2]
  rfl

/-- C9 amended witness: instantiated at the scenario chain with the two
absent names `"foo"` and `"bar"`. -/
theorem Common.hardforkGteHardfork_both_absent_witness :
    Common.hardforkGteHardfork ctxA (some "foo") "bar" ⟨some false, none⟩ = .ok true :=
  Common.hardforkGteHardfork_both_absent ctxA "foo" "bar" ⟨some false, none⟩
    (by decide) (Or.inl (by decide)) (by decide) (by decide)

/-! The validation loop of `setEIPs`. -/

theorem gteHardfork_stored_ok (c : Common) (hf : String) (opts : hardforkOptions) :
    ∃ b, c.gteHardfork hf opts = .ok b := by
  unfold Common.gteHardfork Common.hardforkGteHardfork
  simp only [Common._chooseHardfork]
  exact ⟨_, rfl⟩

theorem setEIPsLoop_ok_iff (ds : Dataset) (c : Common) :
    ∀ l : List Nat,
      (Common.setEIPsLoop ds c l = .ok () ↔ ∀ e ∈ l, eipValidB ds c e = true) := by
  intro l
  induction l with
  | nil => simp [Common.setEIPsLoop]
  | cons e rest ih =>
    cases hl : ds.eipDefs.lookup e with
    | none =>
      simp only [Common.setEIPsLoop, hl]
      constructor
      · intro h
        exact absurd h (by simp)
      · intro h
        have he := h e (List.mem_cons_self e rest)
        simp only [eipValidB, hl] at he
        exact absurd he (by simp)
    | some d =>
      obtain ⟨b, hb⟩ := gteHardfork_stored_ok c d.minimumHardfork noOpts
      cases b with
      | false =>
        simp only [Common.setEIPsLoop, hl, hb, Bool.not_false]
        rw [if_pos trivial]
        constructor
        · intro h
          exact absurd h (by simp)
        · intro h
          have he := h e (List.mem_cons_self e rest)
          simp only [eipValidB, hl, hb] at he
          exact absurd he (by simp)
      | true =>
        simp only [Common.setEIPsLoop, hl, hb, Bool.not_true]
        rw [if_neg (by simp)]
        constructor
        · intro h e' he'
          rcases List.mem_cons.mp he' with rfl | hm
          · simp [eipValidB, hl, hb]
          · exact (ih.mp h) e' hm
        · intro h
          exact ih.mpr (fun e' he' => h e' (List.mem_cons_of_mem _ he'))

theorem setEIPsLoop_error_shape (ds : Dataset) (c : Common) :
    ∀ (l : List Nat) (err : CommonError),
      Common.setEIPsLoop ds c l = .error err →
      ∃ e, err = .eipNotSupported e ∨ err = .eipHardforkTooOld e := by
  intro l
  induction l with
  | nil =>
    intro err h
    simp [Common.setEIPsLoop] at h
  | cons e rest ih =>
    intro err h
    cases hl : ds.eipDefs.lookup e with
    | none =>
      simp only [Common.setEIPsLoop, hl] at h
      exact ⟨e, Or.inl (by cases h; rfl)⟩
    | some d =>
      obtain ⟨b, hb⟩ := gteHardfork_stored_ok c d.minimumHardfork noOpts
      cases b with
      | false =>
        simp only [Common.setEIPsLoop, hl, hb, Bool.not_false] at h
        rw [if_pos trivial] at h
        exact ⟨e, Or.inr (by cases h; rfl)⟩
      | true =>
        simp only [Common.setEIPsLoop, hl, hb, Bool.not_true] at h
        rw [if_neg (by simp)] at h
        exact ih err h

/-- C4: `setEIPs` is all-or-nothing: the call succeeds exactly when every
EIP of the list is defined in the dataset and meets its `minimumHardfork`
against the stored hardfork; on failure the error is an unknown-EIP or
hardfork-too-old error and the instance is returned unchanged; on success
the only mutation is the committed EIP list. -/
theorem Common.setEIPs_all_or_nothing (ds : Dataset) (c : Common) (eips : List Nat) :
    ((Common.setEIPs ds c eips).1 = none ↔ ∀ e ∈ eips, eipValidB ds c e = true)
    ∧ (∀ err : CommonError, (Common.setEIPs ds c eips).1 = some err →
        (Common.setEIPs ds c eips).2 = c ∧
        ∃ e, err = .eipNotSupported e ∨ err = .eipHardforkTooOld e)
    ∧ ((Common.setEIPs ds c eips).1 = none →
        (Common.setEIPs ds c eips).2 = { c with eips := eips }) := by
  cases hres : Common.setEIPsLoop ds c eips with
  | error err0 =>
    have h2 : Common.setEIPs ds c eips = (some err0, c) := by
      simp only [Common.setEIPs, hres]
    have hvalid : ¬ (∀ e ∈ eips, eipValidB ds c e = true) := by
      intro h
      have hok := (setEIPsLoop_ok_iff ds c eips).mpr h
      rw [hres] at hok
      exact absurd hok (by simp)
    refine ⟨?_, ?_, ?_⟩
    · rw [h2]
      constructor
      · intro h
        exact absurd h (by simp)
      · intro h
        exact absurd h hvalid
    · intro err h
      rw [h2] at h
      have he : err0 = err := by
        simpa using h
      subst he
      rw [h2]
      exact ⟨rfl, setEIPsLoop_error_shape ds c eips err0 hres⟩
    · intro h
      rw [h2] at h
      exact absurd h (by simp)
  | ok u =>
    cases u
    have h2 : Common.setEIPs ds c eips = (none, { c with eips := eips }) := by
      simp only [Common.setEIPs, hres]
    refine ⟨?_, ?_, ?_⟩
    · rw [h2]
      constructor
      · intro _
        exact (setEIPsLoop_ok_iff ds c eips).mp hres
      · intro _
        rfl
    · intro err h
      rw [h2] at h
      exact absurd h (by simp)
    · intro _
      rw [h2]

/-- C4 witness: on the scenario chain at `chainstart`, committing
`[2929]` succeeds and mutates only the EIP list, while `[2929, 2537]`
(EIP 2537 requires `istanbul`) fails and leaves the instance unchanged. -/
theorem Common.setEIPs_all_or_nothing_witness :
    (Common.setEIPs dsA ctxChainstart [2929]).1 = none ∧
    (Common.setEIPs dsA ctxChainstart [2929]).2 = { ctxChainstart with eips := [2929] } ∧
    (Common.setEIPs dsA ctxChainstart [2929, 2537]).2 = ctxChainstart := by
  refine ⟨?_, ?_, ?_⟩
  · exact (Common.setEIPs_all_or_nothing dsA ctxChainstart [2929]).1.mpr (by decide)
  · exact (Common.setEIPs_all_or_nothing dsA ctxChainstart [2929]).2.2
      ((Common.setEIPs_all_or_nothing dsA ctxChainstart [2929]).1.mpr (by decide))
  · exact ((Common.setEIPs_all_or_nothing dsA ctxChainstart [2929, 2537]).2.1
      (.eipHardforkTooOld 2537) (by decide)).1

/-- C5: for a hardfork name present in the timeline, `forkHash` fails with
the no-fork-hash error exactly when the record's block is null; when the
block is non-null and the record stores a precomputed `forkHash` field,
that value is returned unchanged (no CRC computation). -/
theorem Common.forkHash_noForkHash_iff (c : Common) (hardfork : String)
    (hfrec : HardforkRecord)
    (h0 : hardfork ≠ "")
    (h1 : c.hardforks.find? (fun hf => hf.name == hardfork) = some hfrec) :
    (c.forkHash (some hardfork) = .error .noForkHash ↔ hfrec.block = none)
    ∧ (∀ (b : Nat) (s : String), hfrec.block = some b → hfrec.forkHash = some s →
        c.forkHash (some hardfork) = .ok s) := by
  have hch : c._chooseHardfork (some hardfork) false = .ok hardfork := by
    simp only [Common._chooseHardfork]
    rw [if_neg h0]
    simp
  have hget : c._getHardfork hardfork = .ok hfrec := by
    unfold Common._getHardfork
    rw [h1]
  constructor
  · cases hblk : hfrec.block with
    | none => simp [Common.forkHash, hch, hget, hblk]
    | some b =>
      cases hfh : hfrec.forkHash with
      | none => simp [Common.forkHash, hch, hget, hblk, hfh]
      | some v => simp [Common.forkHash, hch, hget, hblk, hfh]
  · intro b s hb hs
    simp [Common.forkHash, hch, hget, hb, hs]

/-- C5 witness: `istanbul` (null block) fails with the no-fork-hash error;
`chainPre`'s `homestead` returns its stored precomputed hash. -/
theorem Common.forkHash_noForkHash_iff_witness :
    Common.forkHash ctxIstanbul (some "istanbul") = .error .noForkHash ∧
    Common.forkHash ctxPre (some "homestead") = .ok "0xfeedc0de" := by
  constructor
  · exact (Common.forkHash_noForkHash_iff ctxIstanbul "istanbul"
      { name := "istanbul", block := none, forkHash := none }
      (by decide) (by decide)).1.mpr rfl
  · exact (Common.forkHash_noForkHash_iff ctxPre "homestead"
      { name := "homestead", block := some 1500, forkHash := some "0xfeedc0de" }
      (by decide) (by decide)).2 1500 "0xfeedc0de" rfl rfl

/-! The `reduce` of `nextHardforkBlock` as a least-element search. -/

theorem nextFold_some (hfBlock : Option Nat) :
    ∀ (l : List HardforkRecord) (x : Nat),
      l.foldl (fun acc r => if jsNum r.block > jsNum hfBlock ∧ acc = none then r.block else acc)
        (some x) = some x := by
  intro l
  induction l with
  | nil => intro x; rfl
  | cons r rest ih =>
    intro x
    simp only [List.foldl_cons]
    rw [if_neg (fun h => Option.noConfusion h.2)]
    exact ih x

theorem nextFold_firstAbove (b : Nat) :
    ∀ l : List HardforkRecord,
      l.foldl (fun acc r => if jsNum r.block > jsNum (some b) ∧ acc = none then r.block else acc)
        none = firstAbove b (l.filterMap (fun hf => hf.block)) := by
  intro l
  induction l with
  | nil => rfl
  | cons r rest ih =>
    cases hb : r.block with
    | none =>
      simp only [List.foldl_cons, List.filterMap_cons, hb]
      rw [if_neg (fun h => by simp [jsNum] at h)]
      exact ih
    | some x =>
      simp only [List.foldl_cons, List.filterMap_cons, hb]
      by_cases hgt : b < x
      · rw [if_pos ⟨by simpa [jsNum] using hgt, by trivial⟩]
        simp only [firstAbove, if_pos hgt]
        exact nextFold_some (some b) rest x
      · rw [if_neg (fun h => hgt (by simpa [jsNum] using h.1))]
        simp only [firstAbove, if_neg hgt]
        exact ih

theorem listMin_le_bound (x : Nat) :
    ∀ (l : List Nat) (m : Nat), (∀ y ∈ l, x ≤ y) → listMin l = some m → x ≤ m := by
  intro l
  induction l with
  | nil =>
    intro m _ h
    cases h
  | cons a rest ih =>
    intro m hall h
    simp only [listMin] at h
    cases hr : listMin rest with
    | none =>
      rw [hr] at h
      injection h with h'
      subst h'
      exact hall a (List.mem_cons_self a rest)
    | some m' =>
      rw [hr] at h
      injection h with h'
      subst h'
      exact le_min (hall a (List.mem_cons_self a rest))
        (ih m' (fun y hy => hall y (List.mem_cons_of_mem _ hy)) hr)

theorem firstAbove_eq_listMin (b : Nat) :
    ∀ l : List Nat, pairwiseLe l = true →
      firstAbove b l = listMin (l.filter (fun x => decide (b < x))) := by
  intro l
  induction l with
  | nil => intro _; rfl
  | cons x rest ih =>
    intro hs
    simp only [pairwiseLe, Bool.and_eq_true] at hs
    obtain ⟨h1, h2⟩ := hs
    have hx : ∀ y ∈ rest, x ≤ y := by
      intro y hy
      exact of_decide_eq_true (List.all_eq_true.mp h1 y hy)
    by_cases hgt : b < x
    · have hcond : decide (b < x) = true := decide_eq_true hgt
      simp only [firstAbove, if_pos hgt, List.filter_cons, hcond, if_pos trivial]
      simp only [listMin]
      cases hm : listMin (rest.filter (fun y => decide (b < y))) with
      | none => rfl
      | some m =>
        have hxm : x ≤ m :=
          listMin_le_bound x _ m (fun y hy => hx y (List.mem_of_mem_filter hy)) hm
        show some x = some (min x m)
        rw [min_eq_left hxm]
    · have hcond : decide (b < x) = false := decide_eq_false hgt
      simp only [firstAbove, if_neg hgt, List.filter_cons, hcond]
      rw [if_neg (by simp)]
      exact ih h2

/-- C6: for a hardfork whose record carries a non-null block, on a timeline
whose non-null blocks are nondecreasing (the data model's ordering
invariant), `nextHardforkBlock` returns the smallest block strictly
greater than the hardfork's block among all records with non-null block,
and null when no such record exists. -/
theorem Common.nextHardforkBlock_least (c : Common) (hardfork : String)
    (hfrec : HardforkRecord) (b : Nat)
    (h0 : hardfork ≠ "")
    (h1 : c.hardforks.find? (fun hf => hf.name == hardfork) = some hfrec)
    (h2 : hfrec.block = some b)
    (h3 : pairwiseLe (c.hardforks.filterMap (fun hf => hf.block)) = true) :
    c.nextHardforkBlock (some hardfork) =
      .ok (listMin ((c.hardforks.filterMap (fun hf => hf.block)).filter
        (fun x => decide (b < x)))) := by
  have hch : c._chooseHardfork (some hardfork) false = .ok hardfork := by
    simp only [Common._chooseHardfork]
    rw [if_neg h0]
    simp
  have hget : c._getHardfork hardfork = .ok hfrec := by
    unfold Common._getHardfork
    rw [h1]
  have hblock : c.hardforkBlock (some hardfork) = .ok (some b) := by
    simp only [Common.hardforkBlock, hch, hget, h2]
  simp only [Common.nextHardforkBlock, hch, hblock]
  rw [nextFold_firstAbove b c.hardforks, firstAbove_eq_listMin b _ h3]

/-- C6 witness: on the scenario table `[chainstart@0, homestead@1150000,
byzantium@4370000, istanbul@null]`, `nextHardforkBlock("homestead")`
returns 4370000. -/
theorem Common.nextHardforkBlock_least_witness :
    Common.nextHardforkBlock ctxChainstart (some "homestead") = .ok (some 4370000) := by
  rw [Common.nextHardforkBlock_least ctxChainstart "homestead"
    { name := "homestead", block := some 1150000, forkHash := none } 1150000
    (by decide) (by decide) rfl (by decide)]
  decide

/-! Splitting the timeline walk of `paramByHardfork`. -/

theorem hfLoop_append (ds : Dataset) (topic pname target : String) :
    ∀ (pre rest : List (String × HFChange)) (v : Option Int),
      target ∉ pre.map Prod.fst →
      Common.hfLoop ds topic pname target (pre ++ rest) v =
        (match Common.hfLoop ds topic pname target pre v with
          | .error e => .error e
          | .ok v' => Common.hfLoop ds topic pname target rest v') := by
  intro pre
  induction pre with
  | nil => intro rest v _; rfl
  | cons p pre' ih =>
    intro rest v h
    obtain ⟨nm, change⟩ := p
    have hne : ¬(nm = target) := by
      intro he
      exact h (by simp [he])
    simp only [List.cons_append, Common.hfLoop]
    cases hstep : Common.hfStep ds topic pname change v with
    | error e => rfl
    | ok v' =>
      show (if nm = target then Except.ok v'
            else Common.hfLoop ds topic pname target (pre' ++ rest) v') =
        (match (if nm = target then Except.ok v'
                else Common.hfLoop ds topic pname target pre' v') with
          | .error e => .error e
          | .ok v'' => Common.hfLoop ds topic pname target rest v'')
      rw [if_neg hne, if_neg hne]
      exact ih rest v' (fun hm => h (List.mem_cons_of_mem _ hm))

/-- C7: when the walk of `paramByHardfork` reaches a parameter-inlining
record that does not define the queried topic (the records before it
having been processed without error and without containing the target),
the call fails with the topic-not-defined error; a record that defines
the topic but not the queried name leaves the accumulated value unchanged
and raises no error. -/
theorem Common.paramByHardfork_unknown_topic (ds : Dataset) (c : Common)
    (topic pname target : String)
    (pre : List (String × HFChange)) (nm : String) (tmap : TopicsDef)
    (post : List (String × HFChange)) :
    ((ds.hardforkChanges = pre ++ (nm, .inlined tmap) :: post) →
      target ∉ pre.map Prod.fst →
      (∃ v0 : Option Int, Common.hfLoop ds topic pname target pre none = .ok v0) →
      tmap.lookup topic = none →
      target ≠ "" →
      c._isSupportedHardfork target = true →
      c.paramByHardfork ds topic pname target = .error (.topicNotDefined topic))
    ∧ (∀ (v : Option Int) (entries : List (String × ParamRec)),
        tmap.lookup topic = some entries →
        entries.lookup pname = none →
        Common.hfStep ds topic pname (.inlined tmap) v = .ok v) := by
  constructor
  · rintro hsplit hpre ⟨v0, hv0⟩ htopic h0 hsup
    have hch : c._chooseHardfork (some target) true = .ok target := by
      simp only [Common._chooseHardfork]
      rw [if_neg h0, hsup]
      simp
    simp only [Common.paramByHardfork, hch]
    rw [hsplit, hfLoop_append ds topic pname target pre _ none hpre, hv0]
    simp only [Common.hfLoop, Common.hfStep, htopic]
  · intro v entries htopic hname
    simp only [Common.hfStep, htopic, hname]

/-- C7 witness: on `dsTopicGap`, walking to `homestead` (whose record
defines only `gasConfig`) with topic `gasPrices` fails with the topic
error, while the `chainstart` record (defining the topic but not the
name) contributes no override and no error. -/
theorem Common.paramByHardfork_unknown_topic_witness :
    Common.paramByHardfork dsTopicGap ctxChainstart "gasPrices" "maxRefund" "homestead" =
      .error (.topicNotDefined "gasPrices") ∧
    Common.hfStep dsTopicGap "gasPrices" "maxRefund"
      (.inlined [("gasPrices", [("netSstoreNoopGas", { v := some 200 })])]) none =
      .ok none := by
  constructor
  · exact (Common.paramByHardfork_unknown_topic dsTopicGap ctxChainstart "gasPrices"
      "maxRefund" "homestead"
      [("chainstart", .inlined [("gasPrices", [("netSstoreNoopGas", { v := some 200 })])])]
      "homestead" [("gasConfig", [])]
      [("byzantium", .inlined [("gasPrices", [])])]).1
      rfl (by decide) ⟨none, by decide⟩ (by decide) (by decide) (by decide)
  · exact (Common.paramByHardfork_unknown_topic dsTopicGap ctxChainstart "gasPrices"
      "maxRefund" "homestead" []
      "chainstart" [("gasPrices", [("netSstoreNoopGas", { v := some 200 })])]
      []).2 none [("netSstoreNoopGas", { v := some 200 })] (by decide) (by decide)

/-! The accumulation loop of `_calcForkHash` against the spec's wording. -/

theorem specForkBytesFrom_cons (hardfork : String) (hf : HardforkRecord)
    (rest : List HardforkRecord) (prev : Option Nat) :
    specForkBytesFrom hardfork prev (hf :: rest) =
      (specRecordBytes (hf, prev)).getD [] ++
        (if hf.name = hardfork then [] else specForkBytesFrom hardfork hf.block rest) := by
  by_cases hname : hf.name = hardfork
  · rw [if_pos hname]
    simp only [specForkBytesFrom, takeToTarget, if_pos hname, List.map_cons, List.map_nil,
      List.zip_cons_cons, List.zip_nil_right, List.filterMap_cons]
    cases hsp : specRecordBytes (hf, prev) <;> simp
  · rw [if_neg hname]
    simp only [specForkBytesFrom, takeToTarget, if_neg hname, List.map_cons,
      List.zip_cons_cons, List.filterMap_cons]
    cases hsp : specRecordBytes (hf, prev) <;> simp

theorem forkHashLoop_spec (hardfork : String) :
    ∀ (l : List HardforkRecord) (prev : Option Nat) (acc : List Nat),
      Common.forkHashLoop hardfork l prev acc = acc ++ specForkBytesFrom hardfork prev l := by
  intro l
  induction l with
  | nil =>
    intro prev acc
    simp [Common.forkHashLoop, specForkBytesFrom, takeToTarget]
  | cons hf rest ih =>
    intro prev acc
    rw [specForkBytesFrom_cons]
    by_cases hname : hf.name = hardfork
    · rw [if_pos hname]
      cases hb : hf.block with
      | none =>
        simp only [Common.forkHashLoop, hb, if_pos hname]
        simp [specRecordBytes, hb]
      | some b =>
        by_cases hc : b ≠ 0 ∧ some b ≠ prev
        · simp only [Common.forkHashLoop, hb, if_pos hname, if_pos hc]
          simp [specRecordBytes, hb, hc]
        · simp only [Common.forkHashLoop, hb, if_pos hname, if_neg hc]
          simp [specRecordBytes, hb, hc]
    · rw [if_neg hname]
      cases hb : hf.block with
      | none =>
        simp only [Common.forkHashLoop, hb, if_neg hname]
        rw [ih]
        simp [specRecordBytes, hb]
      | some b =>
        by_cases hc : b ≠ 0 ∧ some b ≠ prev
        · simp only [Common.forkHashLoop, hb, if_pos hc, if_neg hname]
          rw [ih]
          simp [specRecordBytes, hb, hc, List.append_assoc]
        · simp only [Common.forkHashLoop, hb, if_neg hc, if_neg hname]
          rw [ih]
          simp [specRecordBytes, hb, hc]

/-- C2: for a hardfork present in the timeline whose record has a non-null
block and no stored fork hash, `forkHash` returns the CRC-32 checksum —
taken unsigned, rendered as 0x-prefixed lowercase hexadecimal — of the
genesis-hash bytes followed by the 8-byte big-endian block numbers of
every walked record, up to and including the target, whose block is
neither 0 nor null and differs from the immediately preceding record's
block value. -/
theorem Common.forkHash_crc_spec (c : Common) (hardfork : String)
    (hfrec : HardforkRecord) (b : Nat)
    (h0 : hardfork ≠ "")
    (h1 : c.hardforks.find? (fun hf => hf.name == hardfork) = some hfrec)
    (h2 : hfrec.block = some b)
    (h3 : hfrec.forkHash = none) :
    c.forkHash (some hardfork) = .ok (specForkHash c hardfork) := by
  have hch : c._chooseHardfork (some hardfork) false = .ok hardfork := by
    simp only [Common._chooseHardfork]
    rw [if_neg h0]
    simp
  have hget : c._getHardfork hardfork = .ok hfrec := by
    unfold Common._getHardfork
    rw [h1]
  simp only [Common.forkHash, hch, hget, h2, h3]
  unfold Common._calcForkHash specForkHash specForkBlockBytes
  rw [forkHashLoop_spec hardfork c.hardforks (some 0) []]
  simp

set_option maxRecDepth 20000 in
/-- C2 witness: instantiated at the scenario chain's `homestead` record
(whose computed hash is the canonical mainnet value `0x97c2c34c`). -/
theorem Common.forkHash_crc_spec_witness :
    Common.forkHash ctxA (some "homestead") = .ok (specForkHash ctxA "homestead") ∧
    specForkHash ctxA "homestead" = "0x97c2c34c" := by
  constructor
  · exact Common.forkHash_crc_spec ctxA "homestead"
      { name := "homestead", block := some 1150000, forkHash := none } 1150000
      (by decide) (by decide) rfl rfl
  · decide

/-! Reverse lookup of fork hashes. -/

theorem head?_of_mem_singleton {α : Type} : ∀ (l : List α) (x : α),
    l.length = 1 → x ∈ l → l.head? = some x := by
  intro l x hl hx
  cases l with
  | nil => cases hx
  | cons a rest =>
    cases rest with
    | nil =>
      have hax := List.mem_singleton.mp hx
      subst hax
      rfl
    | cons b rest' => simp at hl

set_option maxRecDepth 20000 in
/-- C8 counterexample: on `chainShadow`, the fork hash computed for
`alpha` occurs exactly once among the stored `forkHash` fields of the
table (namely on `beta`'s record), yet feeding it back through
`hardforkForForkHash` returns `beta`'s record, not `alpha`'s. -/
theorem Common.forkHash_roundtrip_cex :
    Common.forkHash ctxShadow (some "alpha") = .ok "0x910e2438" ∧
    (ctxShadow.hardforks.filter
      (fun hf => hf.forkHash == some "0x910e2438")).length = 1 ∧
    Common.hardforkForForkHash ctxShadow "0x910e2438" =
      some { name := "beta", block := some 2, forkHash := some "0x910e2438" } ∧
    Common.hardforkForForkHash ctxShadow "0x910e2438" ≠
      some { name := "alpha", block := some 1, forkHash := none } := by
  refine ⟨by decide, by decide, by decide, by decide⟩

/-- C8 (amended): the round-trip holds for a hardfork whose record itself
stores a precomputed `forkHash` field that occurs uniquely among the
stored fields of the table and whose block is non-null:
`hardforkForForkHash(forkHash(H))` returns H's record.  (The reverse
lookup compares only stored `forkHash` fields, so for a record without a
stored field the round-trip can land on a different record.) -/
theorem Common.forkHash_roundtrip_amended (c : Common) (hardfork : String)
    (hfrec : HardforkRecord) (b : Nat) (s : String)
    (h0 : hardfork ≠ "")
    (h1 : c.hardforks.find? (fun hf => hf.name == hardfork) = some hfrec)
    (h2 : hfrec.block = some b)
    (h3 : hfrec.forkHash = some s)
    (h4 : (c.hardforks.filter (fun hf => hf.forkHash == some s)).length = 1) :
    c.forkHash (some hardfork) = .ok s ∧
    c.hardforkForForkHash s = some hfrec := by
  have hch : c._chooseHardfork (some hardfork) false = .ok hardfork := by
    simp only [Common._chooseHardfork]
    rw [if_neg h0]
    simp
  have hget : c._getHardfork hardfork = .ok hfrec := by
    unfold Common._getHardfork
    rw [h1]
  constructor
  · simp only [Common.forkHash, hch, hget, h2, h3]
  · unfold Common.hardforkForForkHash
    rw [if_pos h4]
    exact head?_of_mem_singleton _ hfrec h4
      (List.mem_filter.mpr ⟨List.mem_of_find?_eq_some h1, by rw [h3]; simp⟩)

/-- C8 amended witness: `chainPre`'s `homestead`, with its stored hash
unique in the table, round-trips to its own record. -/
theorem Common.forkHash_roundtrip_amended_witness :
    Common.forkHash ctxPre (some "homestead") = .ok "0xfeedc0de" ∧
    Common.hardforkForForkHash ctxPre "0xfeedc0de" =
      some { name := "homestead", block := some 1500, forkHash := some "0xfeedc0de" } :=
  Common.forkHash_roundtrip_amended ctxPre "homestead"
    { name := "homestead", block := some 1500, forkHash := some "0xfeedc0de" }
    1500 "0xfeedc0de" (by decide) (by decide) rfl rfl (by decide)

/-- C3 witness: on the scenario chain at block 2000000 the active
hardforks are exactly the prefix `[chainstart, homestead]`. -/
theorem Common.activeHardforks_timeline_spec_witness :
    Common.activeHardforks ctxA (some 2000000) noOpts =
      [ { name := "chainstart", block := some 0, forkHash := none }
      , { name := "homestead", block := some 1150000, forkHash := none } ] := by
  rw [(Common.activeHardforks_timeline_spec ctxA 2000000).1 noOpts]
  decide
